import Mathlib

/-!
Verification of the pvoutput download orchestrator's date-range logic.

Shallow embedding of `pvoutput/daterange.py`, `pvoutput/utils.py` and
`pvoutput/pvoutput.py`.  Calendar dates are modelled as `Int` day numbers
(days since 1970-01-01, proleptic Gregorian); `datetime.timedelta` arithmetic
on whole dates is plain integer arithmetic on those day numbers.
-/

/-- Day number of a proleptic-Gregorian calendar date (days since 1970-01-01).
Only used to write concrete scenarios with readable dates; the algorithm
embeddings work on plain `Int` day numbers. -/
def daysFromCivil (y m d : Int) : Int :=
  let y' := if m ≤ 2 then y - 1 else y
  let era := (if 0 ≤ y' then y' else y' - 399) / 400
  let yoe := y' - era * 400
  let mp := (m + 9) % 12
  let doy := (153 * mp + 2) / 5 + d - 1
  let doe := yoe * 365 + yoe / 4 - yoe / 100 + doy
  era * 146097 + doe - 719468

example : daysFromCivil 1970 1 1 = 0 := by decide
example : daysFromCivil 1970 1 2 = 1 := by decide
example : daysFromCivil 2019 1 1 - daysFromCivil 2018 1 1 = 365 := by decide
example : daysFromCivil 2020 6 1 - daysFromCivil 2019 1 1 = 517 := by decide

/-- `DateRange` from `pvoutput/daterange.py`: a closed interval of calendar
dates.  Dataclass equality compares both endpoints. -/
structure DateRange where
  start_date : Int
  end_date : Int
deriving DecidableEq, Repr

/-- `DateRange.intersection` from `pvoutput/daterange.py` lines 18-22:
`new_start = max(starts)`, `new_end = min(ends)`; a `DateRange` is returned
only when `new_start < new_end`, otherwise Python falls through and returns
`None`. -/
def DateRange.intersection (self other : DateRange) : Option DateRange :=
  let new_start := max self.start_date other.start_date
  let new_end := min self.end_date other.end_date
  if new_start < new_end then some ⟨new_start, new_end⟩ else none

/-- `DateRange.total_days` from `pvoutput/daterange.py` lines 27-32:
`end_date - start_date` in whole days. -/
def DateRange.total_days (self : DateRange) : Int :=
  self.end_date - self.start_date

/-- The `for year_back in range(...)` loop of `DateRange.split_into_years`
(`pvoutput/daterange.py` lines 40-48).  Arguments: the original range's
`start_date` (used for clamping), the remaining number of iterations, and the
running `end_date`. -/
def splitIntoYearsLoop (self_start : Int) : Nat → Int → List DateRange
  | 0, _ => []
  | year_back + 1, end_date =>
    let start_date := end_date - 365
    let start_date := if start_date < self_start then self_start else start_date
    ⟨start_date, end_date⟩ :: splitIntoYearsLoop self_start year_back start_date

/-- `DateRange.split_into_years` from `pvoutput/daterange.py` lines 34-48.
In the source, `num_years = duration / timedelta(days=365)` and the guard is
`num_years <= 1`, which for whole-day durations is exactly `duration ≤ 365`;
the iteration count `np.ceil(num_years)` is the ceiling `⌈duration / 365⌉`,
written here as `(duration.toNat + 364) / 365` (the guard ensures
`duration > 365 > 0` on this branch). -/
def DateRange.split_into_years (self : DateRange) : List DateRange :=
  let duration := self.end_date - self.start_date
  if duration ≤ 365 then [self]
  else splitIntoYearsLoop self.start_date ((duration.toNat + 364) / 365) self.end_date

/-- Ascending sort of day numbers, modelling `np.sort` in
`get_date_range_list` (`pvoutput/daterange.py` line 55). -/
def sortInts (dates : List Int) : List Int :=
  List.insertionSort (· ≤ ·) dates

/-- The gap-splitting pass of `get_date_range_list` (`pvoutput/daterange.py`
lines 56-67): walking the sorted dates, a difference of more than one day
between neighbours closes the current `DateRange` and starts a new one.
Arguments: the current run's first date, the current run's last date seen so
far, and the remaining sorted dates. -/
def gapSplit : Int → Int → List Int → List DateRange
  | s, last, [] => [⟨s, last⟩]
  | s, last, d :: ds =>
    if d - last > 1 then ⟨s, last⟩ :: gapSplit d d ds
    else gapSplit s d ds

/-- `get_date_range_list` from `pvoutput/daterange.py` lines 51-69: sort the
dates, then split into one `DateRange` per maximal run (gap threshold: a
difference of more than 1 day between sorted neighbours). -/
def get_date_range_list (dates : List Int) : List DateRange :=
  match sortInts dates with
  | [] => []
  | d :: ds => gapSplit d d ds

/-- The accumulator loop of `merge_date_ranges_to_years`
(`pvoutput/daterange.py` lines 97-118).  `years_to_download` is kept in
reverse append order (head = most recently appended window, i.e. Python's
`years_to_download[-1]`) and reversed on return. -/
def mergeDateRangesLoop : List DateRange → List DateRange → List DateRange
  | [], years_to_download => years_to_download.reverse
  | date_range :: rest, years_to_download =>
    match years_to_download with
    | [] =>
      let date_to := date_range.end_date
      mergeDateRangesLoop rest (⟨date_to - 365, date_to⟩ :: years_to_download)
    | last :: _ =>
      match date_range.intersection last with
      | some inter =>
        if inter = date_range then
          mergeDateRangesLoop rest years_to_download
        else
          let date_to := inter.start_date
          mergeDateRangesLoop rest (⟨date_to - 365, date_to⟩ :: years_to_download)
      | none =>
        let date_to := date_range.end_date
        mergeDateRangesLoop rest (⟨date_to - 365, date_to⟩ :: years_to_download)

/-- `merge_date_ranges_to_years` from `pvoutput/daterange.py` lines 81-118:
reverse the (ascending) input to newest-first, explode each range via
`split_into_years`, then run the accumulator loop.  The source's early
`return []` for empty input coincides with `mergeDateRangesLoop [] [] = []`. -/
def merge_date_ranges_to_years (date_ranges : List DateRange) : List DateRange :=
  mergeDateRangesLoop ((date_ranges.reverse).flatMap DateRange.split_into_years) []

/-- Membership of a date in a closed `DateRange`. -/
def DateRange.containsDate (r : DateRange) (x : Int) : Prop :=
  r.start_date ≤ x ∧ x ≤ r.end_date

instance (r : DateRange) (x : Int) : Decidable (r.containsDate x) := by
  unfold DateRange.containsDate; infer_instance

/-- A date is covered by a list of `DateRange`s when some range contains it. -/
def coveredBy (rs : List DateRange) (x : Int) : Prop :=
  ∃ r ∈ rs, r.containsDate x

instance (rs : List DateRange) (x : Int) : Decidable (coveredBy rs x) :=
  List.decidableBEx _ rs

/- Sanity checks against the repository's own `test_daterange.py`. -/
example :
    DateRange.intersection ⟨daysFromCivil 2019 1 1, daysFromCivil 2019 1 10⟩
      ⟨daysFromCivil 2019 1 5, daysFromCivil 2019 1 20⟩ =
      some ⟨daysFromCivil 2019 1 5, daysFromCivil 2019 1 10⟩ := by decide

example :
    DateRange.intersection ⟨daysFromCivil 2019 1 1, daysFromCivil 2019 1 2⟩
      ⟨daysFromCivil 2020 1 1, daysFromCivil 2020 1 2⟩ = none := by decide

example :
    DateRange.split_into_years ⟨daysFromCivil 2019 1 1, daysFromCivil 2020 6 1⟩ =
      [⟨daysFromCivil 2019 6 2, daysFromCivil 2020 6 1⟩,
       ⟨daysFromCivil 2019 1 1, daysFromCivil 2019 6 2⟩] := by decide

example :
    merge_date_ranges_to_years
      [⟨daysFromCivil 2018 1 1, daysFromCivil 2018 2 1⟩] =
      [⟨daysFromCivil 2017 2 1, daysFromCivil 2018 2 1⟩] := by decide

example :
    merge_date_ranges_to_years
      [⟨daysFromCivil 2014 1 1, daysFromCivil 2016 2 1⟩,
       ⟨daysFromCivil 2017 1 1, daysFromCivil 2018 2 1⟩] =
      [⟨daysFromCivil 2017 2 1, daysFromCivil 2018 2 1⟩,
       ⟨daysFromCivil 2016 2 2, daysFromCivil 2017 2 1⟩,
       ⟨daysFromCivil 2015 2 1, daysFromCivil 2016 2 1⟩,
       ⟨daysFromCivil 2014 2 1, daysFromCivil 2015 2 1⟩,
       ⟨daysFromCivil 2013 2 1, daysFromCivil 2014 2 1⟩] := by decide

/-- Claim C7: `a.intersection b` is the no-overlap sentinel `none` iff
`max(a.start, b.start) ≥ min(a.end, b.end)` (so a single-day or zero-day
overlap counts as no intersection), and otherwise it is
`DateRange (max starts) (min ends)`. -/
theorem DateRange.intersection_spec (a b : DateRange) :
    (a.intersection b = none ↔
      min a.end_date b.end_date ≤ max a.start_date b.start_date) ∧
    (max a.start_date b.start_date < min a.end_date b.end_date →
      a.intersection b =
        some ⟨max a.start_date b.start_date, min a.end_date b.end_date⟩) := by
  constructor
  · by_cases h : max a.start_date b.start_date < min a.end_date b.end_date
    · simp only [DateRange.intersection, if_pos h, reduceCtorEq, false_iff]
      omega
    · simp only [DateRange.intersection, if_neg h, true_iff]
      omega
  · intro h
    simp [DateRange.intersection, h]

/-- Witness for C7 at concrete ranges. -/
theorem DateRange.intersection_spec_witness :
    DateRange.intersection ⟨0, 10⟩ ⟨5, 20⟩ = some ⟨5, 10⟩ := by
  have h := (DateRange.intersection_spec ⟨0, 10⟩ ⟨5, 20⟩).2 (by decide)
  simpa using h

/-- Claim C8: `split_into_years` on a range of duration at most 365 days
(including exactly 365) returns `[self]` unchanged; on an 18-month range
(here 2019-01-01 to 2020-06-01, as in the repository's own test) it returns
exactly two windows newest-first, the newest ending at the original
`end_date`, each spanning at most 365 days, together covering the full
original span, with the older window's start clamped to the original
`start_date`. -/
theorem DateRange.split_into_years_spec :
    (∀ dr : DateRange, dr.end_date - dr.start_date ≤ 365 →
      dr.split_into_years = [dr]) ∧
    (DateRange.split_into_years ⟨daysFromCivil 2019 1 1, daysFromCivil 2020 6 1⟩ =
        [⟨daysFromCivil 2019 6 2, daysFromCivil 2020 6 1⟩,
         ⟨daysFromCivil 2019 1 1, daysFromCivil 2019 6 2⟩] ∧
      (∀ w ∈ DateRange.split_into_years ⟨daysFromCivil 2019 1 1, daysFromCivil 2020 6 1⟩,
        w.end_date - w.start_date ≤ 365) ∧
      (∀ x : Int, daysFromCivil 2019 1 1 ≤ x → x ≤ daysFromCivil 2020 6 1 →
        coveredBy (DateRange.split_into_years
          ⟨daysFromCivil 2019 1 1, daysFromCivil 2020 6 1⟩) x)) := by
  refine ⟨fun dr h => ?_, by decide, by decide, fun x h1 h2 => ?_⟩
  · unfold DateRange.split_into_years
    simp [h]
  · have hs : DateRange.split_into_years
        ⟨daysFromCivil 2019 1 1, daysFromCivil 2020 6 1⟩ =
        [⟨daysFromCivil 2019 6 2, daysFromCivil 2020 6 1⟩,
         ⟨daysFromCivil 2019 1 1, daysFromCivil 2019 6 2⟩] := by decide
    rw [hs]
    by_cases hx : daysFromCivil 2019 6 2 ≤ x
    · refine ⟨⟨daysFromCivil 2019 6 2, daysFromCivil 2020 6 1⟩, by simp, ?_⟩
      simp only [DateRange.containsDate]
      omega
    · refine ⟨⟨daysFromCivil 2019 1 1, daysFromCivil 2019 6 2⟩, by simp, ?_⟩
      simp only [DateRange.containsDate]
      omega

/-- Witness for C8: a range of exactly 365 days is returned unchanged. -/
theorem DateRange.split_into_years_spec_witness :
    DateRange.split_into_years
        ⟨daysFromCivil 2019 1 1, daysFromCivil 2020 1 1⟩ =
      [⟨daysFromCivil 2019 1 1, daysFromCivil 2020 1 1⟩] :=
  DateRange.split_into_years_spec.1
    ⟨daysFromCivil 2019 1 1, daysFromCivil 2020 1 1⟩ (by decide)

/-- The head of a `splitIntoYearsLoop` result (when any) ends at the running
`end_date` the loop was entered with. -/
lemma splitIntoYearsLoop_head_end (s e : Int) (k : Nat) :
    ∀ y ∈ (splitIntoYearsLoop s k e).head?, y.end_date = e := by
  cases k with
  | zero => simp [splitIntoYearsLoop]
  | succ k => simp [splitIntoYearsLoop]

/-- Consecutive windows produced by the `split_into_years` loop share a
boundary: each next (older) window ends where the previous one starts. -/
lemma splitIntoYearsLoop_chain (s : Int) :
    ∀ (k : Nat) (e : Int),
      List.Chain' (fun a b => b.end_date = a.start_date) (splitIntoYearsLoop s k e) := by
  intro k
  induction k with
  | zero => intro e; simp [splitIntoYearsLoop]
  | succ k ih =>
    intro e
    rw [splitIntoYearsLoop, List.chain'_cons']
    exact ⟨fun y hy => splitIntoYearsLoop_head_end s _ k y hy, ih _⟩

/-- Every window produced by the loop stays within `[s, e]`, is well-formed
and spans at most 365 days. -/
lemma splitIntoYearsLoop_mem (s : Int) :
    ∀ (k : Nat) (e : Int), s ≤ e →
      ∀ r ∈ splitIntoYearsLoop s k e,
        s ≤ r.start_date ∧ r.end_date ≤ e ∧ r.start_date ≤ r.end_date ∧
          r.end_date - r.start_date ≤ 365 := by
  intro k
  induction k with
  | zero => intro e _ r hr; simp [splitIntoYearsLoop] at hr
  | succ k ih =>
    intro e he r hr
    rw [splitIntoYearsLoop] at hr
    rcases List.mem_cons.1 hr with h | h
    · subst h
      constructor
      · by_cases hc : e - 365 < s <;> simp [hc] <;> omega
      · by_cases hc : e - 365 < s <;> simp [hc] <;> omega
    · have hs : s ≤ (if e - 365 < s then s else e - 365) := by
        by_cases hc : e - 365 < s <;> simp [hc] <;> omega
    -- the iterated end date is the new start date, which is at most e
      have := ih _ hs r h
      have hle : (if e - 365 < s then s else e - 365) ≤ e := by
        by_cases hc : e - 365 < s <;> simp [hc] <;> omega
      exact ⟨this.1, by omega, this.2.2⟩

/-- A date covered by a list of ranges is covered by any extension at the
head. -/
lemma coveredBy_cons {rs : List DateRange} {x : Int} (r : DateRange)
    (h : coveredBy rs x) : coveredBy (r :: rs) x := by
  obtain ⟨r', hr', hx⟩ := h
  exact ⟨r', List.mem_cons_of_mem _ hr', hx⟩

/-- Provided the loop runs enough iterations to walk back past `s`
(`e - 365·k ≤ s`, with at least one iteration), every date of `[s, e]` is
covered by some produced window. -/
lemma splitIntoYearsLoop_cover :
    ∀ (k : Nat) (e : Int) (s x : Int), 1 ≤ k → e - 365 * k ≤ s → s ≤ x → x ≤ e →
      coveredBy (splitIntoYearsLoop s k e) x := by
  intro k
  induction k with
  | zero => intro e s x h1 _ _ _; omega
  | succ k ih =>
    intro e s x _ hk hs hx
    rw [splitIntoYearsLoop]
    set st := (if e - 365 < s then s else e - 365) with hst
    by_cases hxs : st ≤ x
    · exact ⟨⟨st, e⟩, List.mem_cons_self _ _, hxs, hx⟩
    · have hst_val : st = e - 365 := by
        by_cases hc : e - 365 < s
        · exfalso; rw [hst] at hxs; simp [hc] at hxs; omega
        · rw [hst]; simp [hc]
      have hk1 : 1 ≤ k := by
        rcases Nat.eq_zero_or_pos k with h0 | h1
        · exfalso
          subst h0
          have : (365 : Int) * 1 = 365 := by norm_num
          omega
        · exact h1
      refine coveredBy_cons _ (ih st s x hk1 ?_ hs (by omega))
      have : (365 : Int) * (k + 1 : Nat) = 365 * (k : Int) + 365 := by
        push_cast; ring
      omega

/-- Claim C10: whenever `split_into_years` returns two or more windows, every
pair of consecutive windows in the newest-first result shares exactly one
boundary date: `window[i+1].end_date = window[i].start_date`, so adjacent
yearly windows overlap by one calendar day (stated as a chain over the whole
result, which is vacuous for results of length at most 1). -/
theorem DateRange.split_into_years_adjacent (dr : DateRange) :
    List.Chain' (fun a b => b.end_date = a.start_date) dr.split_into_years := by
  unfold DateRange.split_into_years
  by_cases h : dr.end_date - dr.start_date ≤ 365
  · simp [h]
  · simp only [h, if_false]
    exact splitIntoYearsLoop_chain _ _ _

/-- An element picked out by `getLast?` is a member of the list. -/
lemma mem_of_getLast? {α : Type _} {l : List α} {x : α} (h : x ∈ l.getLast?) :
    x ∈ l := by
  rcases List.mem_getLast?_eq_getLast h with ⟨hne, rfl⟩
  exact List.getLast_mem hne

/-- Characterisation of a successful `DateRange.intersection`. -/
lemma DateRange.intersection_eq_some {a b i : DateRange} :
    a.intersection b = some i ↔
      max a.start_date b.start_date < min a.end_date b.end_date ∧
        i = ⟨max a.start_date b.start_date, min a.end_date b.end_date⟩ := by
  unfold DateRange.intersection
  by_cases h : max a.start_date b.start_date < min a.end_date b.end_date
  · simp only [h, if_true, Option.some.injEq, true_and]
    exact eq_comm
  · simp [h]

/-- `split_into_years` never returns the empty list. -/
lemma split_into_years_ne_nil (dr : DateRange) : dr.split_into_years ≠ [] := by
  unfold DateRange.split_into_years
  by_cases h : dr.end_date - dr.start_date ≤ 365
  · simp [h]
  · simp only [h, if_false]
    have h366 : 366 ≤ (dr.end_date - dr.start_date).toNat := by omega
    have hk : 1 ≤ ((dr.end_date - dr.start_date).toNat + 364) / 365 := by
      have := Nat.div_add_mod ((dr.end_date - dr.start_date).toNat + 364) 365
      have := Nat.mod_lt ((dr.end_date - dr.start_date).toNat + 364)
        (show 0 < 365 by norm_num)
      omega
    rcases Nat.exists_eq_add_of_le hk with ⟨k, hkk⟩
    rw [hkk, Nat.add_comm, splitIntoYearsLoop]
    simp

/-- Every window of `split_into_years` of a well-formed range stays within the
range, is well-formed and spans at most 365 days. -/
lemma split_into_years_mem {dr : DateRange} (h : dr.start_date ≤ dr.end_date) :
    ∀ r ∈ dr.split_into_years,
      dr.start_date ≤ r.start_date ∧ r.end_date ≤ dr.end_date ∧
        r.start_date ≤ r.end_date ∧ r.end_date - r.start_date ≤ 365 := by
  intro r hr
  unfold DateRange.split_into_years at hr
  by_cases hd : dr.end_date - dr.start_date ≤ 365
  · simp only [hd, if_true, List.mem_singleton] at hr
    subst hr
    exact ⟨le_refl _, le_refl _, h, hd⟩
  · simp only [hd, if_false] at hr
    exact splitIntoYearsLoop_mem _ _ _ h r hr

/-- Every date of a well-formed range is covered by its `split_into_years`. -/
lemma split_into_years_cover {dr : DateRange} (_h : dr.start_date ≤ dr.end_date)
    {x : Int} (hx1 : dr.start_date ≤ x) (hx2 : x ≤ dr.end_date) :
    coveredBy dr.split_into_years x := by
  unfold DateRange.split_into_years
  by_cases hd : dr.end_date - dr.start_date ≤ 365
  · exact ⟨dr, by simp [hd], hx1, hx2⟩
  · simp only [hd, if_false]
    set n := (dr.end_date - dr.start_date).toNat with hn
    have h366 : 366 ≤ n := by omega
    have hdm := Nat.div_add_mod (n + 364) 365
    have hmlt := Nat.mod_lt (n + 364) (show 0 < 365 by norm_num)
    set k := (n + 364) / 365 with hk
    have hk1 : 1 ≤ k := by omega
    have hcast : (365 : Int) * (k : Int) ≥ (n : Int) := by
      have : 365 * k + (n + 364) % 365 = n + 364 := hdm
      have : (365 : Int) * (k : Int) + (((n + 364) % 365 : Nat) : Int)
          = (n : Int) + 364 := by exact_mod_cast this
      omega
    refine splitIntoYearsLoop_cover k dr.end_date dr.start_date x hk1 ?_ hx1 hx2
    omega

/-- The windows of `split_into_years` form a weakly descending chain: each
next (older) window ends no later than the previous one starts. -/
lemma split_into_years_chain_le (dr : DateRange) :
    List.Chain' (fun a b => b.end_date ≤ a.start_date) dr.split_into_years := by
  unfold DateRange.split_into_years
  by_cases h : dr.end_date - dr.start_date ≤ 365
  · simp [h]
  · simp only [h, if_false]
    exact (splitIntoYearsLoop_chain _ _ _).imp (fun _ _ hab => le_of_eq hab)

/-- The head window of `split_into_years` ends at the original `end_date`. -/
lemma split_into_years_head_end (dr : DateRange) :
    ∀ y ∈ dr.split_into_years.head?, y.end_date = dr.end_date := by
  unfold DateRange.split_into_years
  by_cases h : dr.end_date - dr.start_date ≤ 365
  · simp [h]
  · simp only [h, if_false]
    exact splitIntoYearsLoop_head_end _ _ _

/-- In a descending chain of well-formed ranges, every later range ends no
later than the head range starts. -/
lemma ends_le_of_desc_chain :
    ∀ (dr : DateRange) (rest : List DateRange),
      List.Chain' (fun a b => b.end_date ≤ a.start_date) (dr :: rest) →
      (∀ r ∈ rest, r.start_date ≤ r.end_date) →
      ∀ r ∈ rest, r.end_date ≤ dr.start_date := by
  intro dr rest
  induction rest generalizing dr with
  | nil => intro _ _ r hr; simp at hr
  | cons b rest ih =>
    intro hchain hwf r hr
    rw [List.chain'_cons] at hchain
    rcases List.mem_cons.1 hr with h | h
    · subst h; exact hchain.1
    · have hb := hwf b (List.mem_cons_self _ _)
      have := ih b hchain.2 (fun r hr => hwf r (List.mem_cons_of_mem _ hr)) r h
      omega

/-- Ranges already in the accumulator survive into the final result of
`mergeDateRangesLoop`. -/
lemma mem_mergeDateRangesLoop_acc :
    ∀ (S acc : List DateRange) (r : DateRange), r ∈ acc →
      r ∈ mergeDateRangesLoop S acc := by
  intro S
  induction S with
  | nil => intro acc r hr; simpa [mergeDateRangesLoop] using hr
  | cons c rest ih =>
    intro acc r hr
    cases acc with
    | nil => simp at hr
    | cons last acc' =>
      simp only [mergeDateRangesLoop]
      cases hint : c.intersection last with
      | some inter =>
        by_cases heq : inter = c
        · simp only [hint, heq, if_pos rfl]
          exact ih _ r hr
        · simp only [hint, if_neg heq]
          exact ih _ r (List.mem_cons_of_mem _ hr)
      | none =>
        simp only [hint]
        exact ih _ r (List.mem_cons_of_mem _ hr)

/-- Introduction form for `containsDate` on a literal range. -/
lemma containsDate_mk {s e x : Int} (h1 : s ≤ x) (h2 : x ≤ e) :
    DateRange.containsDate ⟨s, e⟩ x := by
  simp only [DateRange.containsDate]
  exact ⟨h1, h2⟩

/-- Core coverage invariant of the `merge_date_ranges_to_years` accumulator
loop: provided the pending ranges form a weakly descending chain of
well-formed at-most-365-day ranges, all ending no later than the most
recently chosen window (when one exists), every date of every pending range
is covered by the final result. -/
lemma mergeDateRangesLoop_cover :
    ∀ (S acc : List DateRange),
      List.Chain' (fun a b => b.end_date ≤ a.start_date) S →
      (∀ r ∈ S, r.start_date ≤ r.end_date ∧ r.end_date - r.start_date ≤ 365) →
      (∀ r ∈ acc, r.end_date - r.start_date = 365) →
      (∀ l, acc.head? = some l → ∀ r ∈ S, r.end_date ≤ l.end_date) →
      ∀ dr ∈ S, ∀ x, dr.start_date ≤ x → x ≤ dr.end_date →
        coveredBy (mergeDateRangesLoop S acc) x := by
  intro S
  induction S with
  | nil => intro acc _ _ _ _ dr hdr; simp at hdr
  | cons c rest ih =>
    intro acc hchain hwf hacc hlast dr hdr x hx1 hx2
    have hcwf := hwf c (List.mem_cons_self _ _)
    have hrest_wf : ∀ r ∈ rest,
        r.start_date ≤ r.end_date ∧ r.end_date - r.start_date ≤ 365 :=
      fun r hr => hwf r (List.mem_cons_of_mem _ hr)
    have hrest_chain := hchain.tail
    have hends : ∀ r ∈ rest, r.end_date ≤ c.start_date :=
      ends_le_of_desc_chain c rest hchain (fun r hr => (hrest_wf r hr).1)
    cases acc with
    | nil =>
      simp only [mergeDateRangesLoop]
      rcases List.mem_cons.1 hdr with h | h
      · subst h
        exact ⟨⟨dr.end_date - 365, dr.end_date⟩,
          mem_mergeDateRangesLoop_acc _ _ _ (List.mem_cons_self _ _),
          containsDate_mk (by omega) hx2⟩
      · refine ih (⟨c.end_date - 365, c.end_date⟩ :: [])
          hrest_chain hrest_wf ?_ ?_ dr h x hx1 hx2
        · intro r hr
          rcases List.mem_cons.1 hr with h' | h'
          · subst h'; simp
          · simp at h'
        · intro l hl r hr
          rw [List.head?_cons, Option.some.injEq] at hl
          subst hl
          have := hends r hr
          simp only []
          omega
    | cons last acc' =>
      have hlastS : ∀ r ∈ c :: rest, r.end_date ≤ last.end_date := hlast last rfl
      simp only [mergeDateRangesLoop]
      cases hint : c.intersection last with
      | some inter =>
        rcases DateRange.intersection_eq_some.1 hint with ⟨hlt, hinter⟩
        subst hinter
        simp only [hint]
        by_cases heq :
            (⟨max c.start_date last.start_date, min c.end_date last.end_date⟩ :
              DateRange) = c
        · rw [if_pos heq]
          have hcs : c.start_date = max c.start_date last.start_date :=
            (congrArg DateRange.start_date heq).symm
          have hce : c.end_date = min c.end_date last.end_date :=
            (congrArg DateRange.end_date heq).symm
          have hls : last.start_date ≤ c.start_date := by
            have := le_max_right c.start_date last.start_date
            omega
          have hle : c.end_date ≤ last.end_date := by
            have := min_le_right c.end_date last.end_date
            omega
          rcases List.mem_cons.1 hdr with h | h
          · subst h
            exact ⟨last,
              mem_mergeDateRangesLoop_acc _ _ _ (List.mem_cons_self _ _),
              hls.trans hx1, hx2.trans hle⟩
          · refine ih (last :: acc') hrest_chain hrest_wf hacc ?_ dr h x hx1 hx2
            intro l hl r hr
            rw [List.head?_cons, Option.some.injEq] at hl
            subst hl
            have := hends r hr
            omega
        · rw [if_neg heq]
          have hmaxc : c.start_date ≤ max c.start_date last.start_date :=
            le_max_left _ _
          have hmaxl : last.start_date ≤ max c.start_date last.start_date :=
            le_max_right _ _
          have hminc : min c.end_date last.end_date ≤ c.end_date :=
            min_le_left _ _
          rcases List.mem_cons.1 hdr with h | h
          · subst h
            by_cases hxi : x ≤ max dr.start_date last.start_date
            · exact ⟨⟨max dr.start_date last.start_date - 365,
                  max dr.start_date last.start_date⟩,
                mem_mergeDateRangesLoop_acc _ _ _ (List.mem_cons_self _ _),
                containsDate_mk (by omega) hxi⟩
            · have hdre : dr.end_date ≤ last.end_date :=
                hlastS dr (List.mem_cons_self _ _)
              exact ⟨last,
                mem_mergeDateRangesLoop_acc _ _ _
                  (List.mem_cons_of_mem _ (List.mem_cons_self _ _)),
                by omega, hx2.trans hdre⟩
          · refine ih (⟨max c.start_date last.start_date - 365,
                max c.start_date last.start_date⟩ :: last :: acc')
              hrest_chain hrest_wf ?_ ?_ dr h x hx1 hx2
            · intro r hr
              rcases List.mem_cons.1 hr with h' | h'
              · subst h'; simp
              · exact hacc r h'
            · intro l hl r hr
              rw [List.head?_cons, Option.some.injEq] at hl
              subst hl
              have := hends r hr
              simp only []
              omega
      | none =>
        simp only [hint]
        rcases List.mem_cons.1 hdr with h | h
        · subst h
          exact ⟨⟨dr.end_date - 365, dr.end_date⟩,
            mem_mergeDateRangesLoop_acc _ _ _ (List.mem_cons_self _ _),
            containsDate_mk (by omega) hx2⟩
        · refine ih (⟨c.end_date - 365, c.end_date⟩ :: last :: acc')
            hrest_chain hrest_wf ?_ ?_ dr h x hx1 hx2
          · intro r hr
            rcases List.mem_cons.1 hr with h' | h'
            · subst h'; simp
            · exact hacc r h'
          · intro l hl r hr
            rw [List.head?_cons, Option.some.injEq] at hl
            subst hl
            have := hends r hr
            simp only []
            omega

/-- The newest-first concatenation of the `split_into_years` pieces of a
weakly descending chain of well-formed ranges is itself a weakly descending
chain. -/
lemma chain_desc_flatMap_split :
    ∀ (m : List DateRange), (∀ r ∈ m, r.start_date ≤ r.end_date) →
      List.Chain' (fun a b => b.end_date ≤ a.start_date) m →
      List.Chain' (fun a b => b.end_date ≤ a.start_date)
        (m.flatMap DateRange.split_into_years) := by
  intro m
  induction m with
  | nil => intro _ _; simp
  | cons c m' ih =>
    intro hwf hchain
    rw [List.flatMap_cons]
    refine List.Chain'.append (split_into_years_chain_le c)
      (ih (fun r hr => hwf r (List.mem_cons_of_mem _ hr)) hchain.tail) ?_
    intro p hp q hq
    cases m' with
    | nil => simp at hq
    | cons b m'' =>
      rw [List.flatMap_cons] at hq
      cases hsb : b.split_into_years with
      | nil => exact absurd hsb (split_into_years_ne_nil b)
      | cons e es =>
        rw [hsb, List.cons_append, List.head?_cons, Option.mem_some_iff] at hq
        have hqb : q ∈ b.split_into_years := by
          rw [hsb, hq]; exact List.mem_cons_self _ _
        have hqe : q.end_date ≤ b.end_date :=
          (split_into_years_mem (hwf b (List.mem_cons_of_mem _
            (List.mem_cons_self _ _))) q hqb).2.1
        have hbc : b.end_date ≤ c.start_date := (List.chain'_cons.1 hchain).1
        have hpc : c.start_date ≤ p.start_date :=
          (split_into_years_mem (hwf c (List.mem_cons_self _ _)) p
            (mem_of_getLast? hp)).1
        omega

/-- Claim C1, counterexample: for the ascending well-formed input
`[2010-01-01..2010-02-01, 2018-01-01..2018-02-01]` the two returned windows
are not adjacent — the older window ends 2010-02-01 but the newer one starts
2017-02-01, a seven-year hole — and for the ascending input
`[2019-06-01..2019-06-01, 2020-01-01..2020-01-10]` the two returned windows
overlap; so the claimed adjacency/non-overlap of consecutive returned
windows is false. -/
theorem merge_date_ranges_to_years_not_adjacent :
    (daysFromCivil 2010 2 1 ≤ daysFromCivil 2018 1 1 ∧
      merge_date_ranges_to_years
          [⟨daysFromCivil 2010 1 1, daysFromCivil 2010 2 1⟩,
           ⟨daysFromCivil 2018 1 1, daysFromCivil 2018 2 1⟩] =
        [⟨daysFromCivil 2017 2 1, daysFromCivil 2018 2 1⟩,
         ⟨daysFromCivil 2009 2 1, daysFromCivil 2010 2 1⟩] ∧
      daysFromCivil 2010 2 1 ≠ daysFromCivil 2017 2 1) ∧
    (daysFromCivil 2019 6 1 ≤ daysFromCivil 2020 1 1 ∧
      merge_date_ranges_to_years
          [⟨daysFromCivil 2019 6 1, daysFromCivil 2019 6 1⟩,
           ⟨daysFromCivil 2020 1 1, daysFromCivil 2020 1 10⟩] =
        [⟨daysFromCivil 2019 1 10, daysFromCivil 2020 1 10⟩,
         ⟨daysFromCivil 2018 6 1, daysFromCivil 2019 6 1⟩] ∧
      DateRange.intersection ⟨daysFromCivil 2019 1 10, daysFromCivil 2020 1 10⟩
          ⟨daysFromCivil 2018 6 1, daysFromCivil 2019 6 1⟩ ≠ none) := by
  exact ⟨⟨by decide, by decide, by decide⟩, ⟨by decide, by decide, by decide⟩⟩

/-- Claim C1 (amended): for every list of well-formed DateRanges in ascending
chronological order given to `merge_date_ranges_to_years`, every date of
every input range lies in some returned window (the returned windows cover
the full requested set of dates); the returned consecutive windows need not
be adjacent nor non-overlapping. -/
theorem merge_date_ranges_to_years_covers (l : List DateRange)
    (hwf : ∀ r ∈ l, r.start_date ≤ r.end_date)
    (hasc : List.Chain' (fun a b => a.end_date ≤ b.start_date) l) :
    ∀ dr ∈ l, ∀ x, dr.start_date ≤ x → x ≤ dr.end_date →
      coveredBy (merge_date_ranges_to_years l) x := by
  intro dr hdr x hx1 hx2
  have hrev_wf : ∀ r ∈ l.reverse, r.start_date ≤ r.end_date := fun r hr =>
    hwf r (List.mem_reverse.1 hr)
  have hrev_chain :
      List.Chain' (fun a b => b.end_date ≤ a.start_date) l.reverse := by
    rw [List.chain'_reverse]
    exact hasc
  have hS_chain := chain_desc_flatMap_split l.reverse hrev_wf hrev_chain
  have hS_wf : ∀ r ∈ l.reverse.flatMap DateRange.split_into_years,
      r.start_date ≤ r.end_date ∧ r.end_date - r.start_date ≤ 365 := by
    intro r hr
    rcases List.mem_flatMap.1 hr with ⟨a, ha, hra⟩
    have h := split_into_years_mem (hrev_wf a ha) r hra
    exact ⟨h.2.2.1, h.2.2.2⟩
  rcases split_into_years_cover (hwf dr hdr) hx1 hx2 with ⟨p, hp, hpx⟩
  obtain ⟨hpa, hpb⟩ := hpx
  exact mergeDateRangesLoop_cover _ [] hS_chain hS_wf (by simp) (by simp)
    p (List.mem_flatMap.2 ⟨dr, List.mem_reverse.2 hdr, hp⟩) x hpa hpb

/-- Witness for C1 (amended), at the repository test input
`[2014-01-01..2016-02-01, 2017-01-01..2018-02-01]`: the date 2014-06-15 of
the first input range is covered by the merged windows. -/
theorem merge_date_ranges_to_years_covers_witness :
    coveredBy
      (merge_date_ranges_to_years
        [⟨daysFromCivil 2014 1 1, daysFromCivil 2016 2 1⟩,
         ⟨daysFromCivil 2017 1 1, daysFromCivil 2018 2 1⟩])
      (daysFromCivil 2014 6 15) :=
  merge_date_ranges_to_years_covers
    [⟨daysFromCivil 2014 1 1, daysFromCivil 2016 2 1⟩,
     ⟨daysFromCivil 2017 1 1, daysFromCivil 2018 2 1⟩]
    (by decide)
    (List.chain'_cons.2 ⟨by decide, List.chain'_singleton _⟩)
    ⟨daysFromCivil 2014 1 1, daysFromCivil 2016 2 1⟩ (by decide)
    (daysFromCivil 2014 6 15) (by decide) (by decide)

/-- Soundness of `gapSplit`: on a strictly ascending remainder, every date of
every produced range satisfies any predicate holding on the current run
`[s, last]` and on every remaining date. -/
lemma gapSplit_sound (P : Int → Prop) :
    ∀ (ds : List Int) (s last : Int),
      List.Chain' (· < ·) (last :: ds) →
      (∀ x, s ≤ x → x ≤ last → P x) →
      (∀ d ∈ ds, P d) →
      ∀ r ∈ gapSplit s last ds, ∀ x, r.start_date ≤ x → x ≤ r.end_date → P x := by
  intro ds
  induction ds with
  | nil =>
    intro s last _ hrun _ r hr x hx1 hx2
    simp only [gapSplit, List.mem_singleton] at hr
    subst hr
    exact hrun x hx1 hx2
  | cons d ds ih =>
    intro s last hchain hrun hds r hr x hx1 hx2
    have hld : last < d := (List.chain'_cons.1 hchain).1
    have hchain' := (List.chain'_cons.1 hchain).2
    simp only [gapSplit] at hr
    by_cases hgap : d - last > 1
    · rw [if_pos hgap] at hr
      rcases List.mem_cons.1 hr with h | h
      · subst h
        exact hrun x hx1 hx2
      · refine ih d d hchain' ?_
          (fun y hy => hds y (List.mem_cons_of_mem _ hy)) r h x hx1 hx2
        intro y hy1 hy2
        have hyd : y = d := le_antisymm hy2 hy1
        rw [hyd]
        exact hds d (List.mem_cons_self _ _)
    · rw [if_neg hgap] at hr
      refine ih s d hchain' ?_
        (fun y hy => hds y (List.mem_cons_of_mem _ hy)) r hr x hx1 hx2
      intro y hy1 hy2
      by_cases hyl : y ≤ last
      · exact hrun y hy1 hyl
      · have hyd : y = d := by omega
        rw [hyd]
        exact hds d (List.mem_cons_self _ _)

/-- Completeness of `gapSplit`: every date of the current run and every
remaining date is covered by some produced range. -/
lemma gapSplit_complete :
    ∀ (ds : List Int) (s last : Int),
      List.Chain' (· < ·) (last :: ds) → s ≤ last →
      ∀ x, ((s ≤ x ∧ x ≤ last) ∨ x ∈ ds) → coveredBy (gapSplit s last ds) x := by
  intro ds
  induction ds with
  | nil =>
    intro s last _ _ x hx
    rcases hx with ⟨h1, h2⟩ | h
    · exact ⟨⟨s, last⟩, by simp [gapSplit], containsDate_mk h1 h2⟩
    · simp at h
  | cons d ds ih =>
    intro s last hchain hsl x hx
    have hld : last < d := (List.chain'_cons.1 hchain).1
    have hchain' := (List.chain'_cons.1 hchain).2
    simp only [gapSplit]
    by_cases hgap : d - last > 1
    · rw [if_pos hgap]
      rcases hx with ⟨h1, h2⟩ | h
      · exact ⟨⟨s, last⟩, List.mem_cons_self _ _, containsDate_mk h1 h2⟩
      · rcases List.mem_cons.1 h with h' | h'
        · subst h'
          exact coveredBy_cons _
            (ih x x hchain' (le_refl x) x (Or.inl ⟨le_refl x, le_refl x⟩))
        · exact coveredBy_cons _ (ih d d hchain' (le_refl d) x (Or.inr h'))
    · rw [if_neg hgap]
      rcases hx with ⟨h1, h2⟩ | h
      · exact ih s d hchain' (by omega) x (Or.inl ⟨h1, by omega⟩)
      · rcases List.mem_cons.1 h with h' | h'
        · subst h'
          exact ih s x hchain' (by omega) x (Or.inl ⟨by omega, le_refl x⟩)
        · exact ih s d hchain' (by omega) x (Or.inr h')

/-- The first range produced by `gapSplit` starts at the pending run's first
date. -/
lemma gapSplit_head_start :
    ∀ (ds : List Int) (s last : Int),
      ∃ e, (gapSplit s last ds).head? = some ⟨s, e⟩ := by
  intro ds
  induction ds with
  | nil => intro s last; exact ⟨last, rfl⟩
  | cons d ds ih =>
    intro s last
    simp only [gapSplit]
    by_cases hgap : d - last > 1
    · rw [if_pos hgap]
      exact ⟨last, rfl⟩
    · rw [if_neg hgap]
      exact ih s d

/-- The ranges produced by `gapSplit` are well-formed and strictly ascending
with a gap of more than one day between consecutive ranges. -/
lemma gapSplit_chain :
    ∀ (ds : List Int) (s last : Int), s ≤ last →
      List.Chain' (· < ·) (last :: ds) →
      List.Chain' (fun a b => a.end_date + 1 < b.start_date)
          (gapSplit s last ds) ∧
        ∀ r ∈ gapSplit s last ds, r.start_date ≤ r.end_date := by
  intro ds
  induction ds with
  | nil =>
    intro s last hsl _
    refine ⟨List.chain'_singleton _, ?_⟩
    intro r hr
    simp only [gapSplit, List.mem_singleton] at hr
    subst hr
    exact hsl
  | cons d ds ih =>
    intro s last hsl hchain
    have hld : last < d := (List.chain'_cons.1 hchain).1
    have hchain' := (List.chain'_cons.1 hchain).2
    simp only [gapSplit]
    by_cases hgap : d - last > 1
    · rw [if_pos hgap]
      obtain ⟨hc, hw⟩ := ih d d (le_refl d) hchain'
      constructor
      · rw [List.chain'_cons']
        refine ⟨?_, hc⟩
        intro y hy
        obtain ⟨e, he⟩ := gapSplit_head_start ds d d
        rw [he, Option.mem_some_iff] at hy
        rw [← hy]
        show last + 1 < d
        omega
      · intro r hr
        rcases List.mem_cons.1 hr with h | h
        · subst h; exact hsl
        · exact hw r h
    · rw [if_neg hgap]
      exact ih s d (by omega) hchain'

/-- `sortInts` sorts ascending. -/
lemma sortInts_sorted (dates : List Int) :
    List.Sorted (· ≤ ·) (sortInts dates) :=
  List.sorted_insertionSort _ _

/-- `sortInts` is a permutation of its input. -/
lemma sortInts_perm (dates : List Int) : List.Perm (sortInts dates) dates :=
  List.perm_insertionSort _ _

/-- On duplicate-free input, the sorted dates are strictly ascending. -/
lemma sortInts_strict_of_nodup {dates : List Int} (h : dates.Nodup) :
    List.Chain' (· < ·) (sortInts dates) := by
  have hs := sortInts_sorted dates
  have hn : (sortInts dates).Nodup := (sortInts_perm dates).nodup_iff.2 h
  rw [List.chain'_iff_pairwise]
  exact hs.lt_of_le hn

/-- Every date inside a range returned by `get_date_range_list` on
duplicate-free input is one of the input dates. -/
lemma get_date_range_list_sound {dates : List Int} (hnd : dates.Nodup) :
    ∀ r ∈ get_date_range_list dates,
      ∀ x, r.start_date ≤ x → x ≤ r.end_date → x ∈ dates := by
  intro r hr x hx1 hx2
  have hchain := sortInts_strict_of_nodup hnd
  have hmem : ∀ y ∈ sortInts dates, y ∈ dates := fun y hy =>
    (sortInts_perm dates).mem_iff.1 hy
  unfold get_date_range_list at hr
  cases hL : sortInts dates with
  | nil => rw [hL] at hr; simp at hr
  | cons d ds =>
    rw [hL] at hr hchain
    refine gapSplit_sound (· ∈ dates) ds d d hchain ?_ ?_ r hr x hx1 hx2
    · intro y hy1 hy2
      have hyd : y = d := le_antisymm hy2 hy1
      rw [hyd]
      exact hmem d (hL ▸ List.mem_cons_self _ _)
    · intro y hy
      exact hmem y (hL ▸ List.mem_cons_of_mem _ hy)

/-- Every input date is covered by `get_date_range_list` (duplicate-free
input). -/
lemma get_date_range_list_complete {dates : List Int} (hnd : dates.Nodup) :
    ∀ x ∈ dates, coveredBy (get_date_range_list dates) x := by
  intro x hx
  have hchain := sortInts_strict_of_nodup hnd
  have hx' : x ∈ sortInts dates := (sortInts_perm dates).mem_iff.2 hx
  unfold get_date_range_list
  cases hL : sortInts dates with
  | nil => rw [hL] at hx'; simp at hx'
  | cons d ds =>
    rw [hL] at hx' hchain
    rcases List.mem_cons.1 hx' with h | h
    · exact gapSplit_complete ds d d hchain (le_refl d) x
        (Or.inl ⟨le_of_eq h.symm, le_of_eq h⟩)
    · exact gapSplit_complete ds d d hchain (le_refl d) x (Or.inr h)

/-- The ranges returned by `get_date_range_list` on duplicate-free input are
well-formed and ascending, with a gap of more than one day between
consecutive ranges. -/
lemma get_date_range_list_chain {dates : List Int} (hnd : dates.Nodup) :
    List.Chain' (fun a b => a.end_date + 1 < b.start_date)
        (get_date_range_list dates) ∧
      ∀ r ∈ get_date_range_list dates, r.start_date ≤ r.end_date := by
  have hchain := sortInts_strict_of_nodup hnd
  unfold get_date_range_list
  cases hL : sortInts dates with
  | nil => simp
  | cons d ds =>
    rw [hL] at hchain
    exact gapSplit_chain ds d d (le_refl d) hchain

/-- Claim C9: `get_date_range_list` on a collection of distinct dates returns
an ascending list of DateRanges, each covering a maximal run of consecutive
dates — a new range starts exactly where sorted neighbours differ by more
than one day (consecutive returned ranges are separated by a gap of more than
one day, every date inside a returned range is an input date, and every input
date lies in some returned range); an empty input yields an empty list; a
single isolated date yields a DateRange with equal start and end; and the
input `{2019-01-01..01-05, 2019-05-01..05-03, 2015-04-01}` yields exactly
`(2015-04-01, 2015-04-01)`, `(2019-01-01, 2019-01-05)`,
`(2019-05-01, 2019-05-03)` in that order. -/
theorem get_date_range_list_spec (dates : List Int) (hnd : dates.Nodup) :
    (List.Chain' (fun a b => a.end_date + 1 < b.start_date)
        (get_date_range_list dates) ∧
      ∀ r ∈ get_date_range_list dates, r.start_date ≤ r.end_date) ∧
    (∀ r ∈ get_date_range_list dates,
      ∀ x, r.start_date ≤ x → x ≤ r.end_date → x ∈ dates) ∧
    (∀ x ∈ dates, coveredBy (get_date_range_list dates) x) ∧
    get_date_range_list [] = [] ∧
    (∀ d : Int, get_date_range_list [d] = [⟨d, d⟩]) ∧
    get_date_range_list
        [daysFromCivil 2019 1 1, daysFromCivil 2019 1 2, daysFromCivil 2019 1 3,
         daysFromCivil 2019 1 4, daysFromCivil 2019 1 5, daysFromCivil 2019 5 1,
         daysFromCivil 2019 5 2, daysFromCivil 2019 5 3, daysFromCivil 2015 4 1] =
      [⟨daysFromCivil 2015 4 1, daysFromCivil 2015 4 1⟩,
       ⟨daysFromCivil 2019 1 1, daysFromCivil 2019 1 5⟩,
       ⟨daysFromCivil 2019 5 1, daysFromCivil 2019 5 3⟩] :=
  ⟨get_date_range_list_chain hnd, get_date_range_list_sound hnd,
    get_date_range_list_complete hnd, rfl, fun _ => rfl, by decide⟩

/-- Witness for C9 at the concrete input `[0, 1, 5]`: the returned ranges are
ascending with a gap of more than one day, and the input date 5 is covered. -/
theorem get_date_range_list_spec_witness :
    List.Chain' (fun a b => a.end_date + 1 < b.start_date)
        (get_date_range_list [0, 1, 5]) ∧
      coveredBy (get_date_range_list [0, 1, 5]) 5 :=
  ⟨(get_date_range_list_spec [0, 1, 5] (by decide)).1.1,
    (get_date_range_list_spec [0, 1, 5] (by decide)).2.2.1 5 (by decide)⟩

/-- Per-system view of the persisted HDF5 store, as read by
`pvoutput/utils.py`: `obs_dates` are the distinct calendar dates of the
stored observation timestamps (`store.select(key).index.date`),
`query_dates` the non-null `query_date` bookkeeping values
(`datetimes.query_date.dropna()`, both from `get_dates_already_downloaded`,
lines 151-163), and `missing_ranges` the
`(missing_start_date_PV_localtime, missing_end_date_PV_localtime)` rows of
the `missing_dates` table for this system (`get_missing_dates_for_id`,
lines 120-142). -/
structure SystemStore where
  obs_dates : List Int
  query_dates : List Int
  missing_ranges : List (Int × Int)

/-- `get_dates_already_downloaded` from `pvoutput/utils.py` lines 151-163:
the union of the stored observation dates and the stored `query_date`
values. -/
def get_dates_already_downloaded (st : SystemStore) (x : Int) : Prop :=
  x ∈ st.obs_dates ∨ x ∈ st.query_dates

instance (st : SystemStore) (x : Int) :
    Decidable (get_dates_already_downloaded st x) := by
  unfold get_dates_already_downloaded; infer_instance

/-- Date-wise reading of `get_missing_dates_for_id` from
`pvoutput/utils.py` lines 120-142: a date is recorded missing when some
stored missing range contains it (`pd.date_range(start, end)` is inclusive
and empty when `end < start`). -/
def is_missing_date (st : SystemStore) (x : Int) : Prop :=
  ∃ p ∈ st.missing_ranges, p.1 ≤ x ∧ x ≤ p.2

instance (st : SystemStore) (x : Int) : Decidable (is_missing_date st x) :=
  List.decidableBEx _ st.missing_ranges

/-- The inclusive daily range `pd.date_range(start_date, end_date, freq="D")`
of `get_date_ranges_to_download` (`pvoutput/utils.py` line 111); empty when
`end_date < start_date`. -/
def int_range (a b : Int) : List Int :=
  (List.range (b - a + 1).toNat).map (fun i : Nat => a + (i : Int))

lemma mem_int_range {a b x : Int} : x ∈ int_range a b ↔ a ≤ x ∧ x ≤ b := by
  unfold int_range
  constructor
  · intro h
    rcases List.mem_map.1 h with ⟨i, hi, hx⟩
    rw [List.mem_range] at hi
    have h0 : (0 : Int) ≤ (i : Int) := Int.natCast_nonneg i
    have h1 : (i : Int) < ((b - a + 1).toNat : Int) := by exact_mod_cast hi
    omega
  · rintro ⟨h1, h2⟩
    refine List.mem_map.2 ⟨(x - a).toNat, ?_, ?_⟩
    · rw [List.mem_range]
      omega
    · omega

lemma int_range_nodup (a b : Int) : (int_range a b).Nodup := by
  unfold int_range
  refine List.Nodup.map ?_ (List.nodup_range _)
  intro i j h
  have hij : a + (i : Int) = a + (j : Int) := h
  omega

/-- `get_date_ranges_to_download` from `pvoutput/utils.py` lines 98-117:
requested dates minus dates already downloaded minus recorded missing dates,
fed through `get_date_range_list`.  The source's Python set difference
produces the same distinct dates in unspecified order; since
`get_date_range_list` begins by sorting, the filtered ascending enumeration
used here is an equivalent realisation. -/
def get_date_ranges_to_download (st : SystemStore) (start_date end_date : Int) :
    List DateRange :=
  get_date_range_list ((int_range start_date end_date).filter
    (fun d => decide (¬ get_dates_already_downloaded st d ∧
      ¬ is_missing_date st d)))

/-- Claim C2: the set of dates covered by the DateRanges returned by
`get_date_ranges_to_download` equals `{start_date..end_date}` minus the dates
already downloaded for the system (distinct observation dates unioned with
stored `query_date` values) minus the dates covered by the system's recorded
missing date ranges; in particular, when every requested date is already
downloaded or recorded missing, the result is the empty list (so a re-run
issues zero remote calls for this system). -/
theorem get_date_ranges_to_download_spec (st : SystemStore) (s e : Int) :
    (∀ x : Int, coveredBy (get_date_ranges_to_download st s e) x ↔
      (s ≤ x ∧ x ≤ e ∧ ¬ get_dates_already_downloaded st x ∧
        ¬ is_missing_date st x)) ∧
    ((int_range s e).all (fun d =>
        decide (get_dates_already_downloaded st d ∨ is_missing_date st d)) =
          true →
      get_date_ranges_to_download st s e = []) := by
  set D := (int_range s e).filter
    (fun d => decide (¬ get_dates_already_downloaded st d ∧
      ¬ is_missing_date st d)) with hD
  have hmemD : ∀ x : Int, x ∈ D ↔
      (s ≤ x ∧ x ≤ e ∧ ¬ get_dates_already_downloaded st x ∧
        ¬ is_missing_date st x) := by
    intro x
    rw [hD, List.mem_filter, mem_int_range, decide_eq_true_eq]
    tauto
  have hnd : D.Nodup := (int_range_nodup s e).filter _
  constructor
  · intro x
    constructor
    · rintro ⟨r, hr, hc⟩
      obtain ⟨h1, h2⟩ := hc
      exact (hmemD x).1 (get_date_range_list_sound hnd r hr x h1 h2)
    · intro hx
      exact get_date_range_list_complete hnd x ((hmemD x).2 hx)
  · intro hall
    have hDnil : D = [] := by
      rw [hD, List.filter_eq_nil_iff]
      intro d hd
      rw [List.all_eq_true] at hall
      have := hall d hd
      rw [decide_eq_true_eq] at this
      simp only [decide_eq_true_eq]
      tauto
    show get_date_range_list D = []
    rw [hDnil]
    rfl

/-- Witness for C2: a store holding observations for days 0-1, a query date
for day 2 and a missing range for days 3-5 turns the request `[0, 5]` into
zero ranges to download. -/
theorem get_date_ranges_to_download_spec_witness :
    get_date_ranges_to_download ⟨[0, 1], [2], [(3, 5)]⟩ 0 5 = [] :=
  (get_date_ranges_to_download_spec ⟨[0, 1], [2], [(3, 5)]⟩ 0 5).2 (by decide)

/-- Ordering of observation rows by their timestamp index, as used by
`timeseries.sort_index()` in `sort_and_de_dupe_pv_system`
(`pvoutput/utils.py` line 173).  A row is a pair of its timestamp key and an
opaque payload distinguishing rows appended at different times. -/
def rowLE (a b : Int × Int) : Prop := a.1 ≤ b.1

instance : DecidableRel rowLE := fun a b => Int.decLe a.1 b.1

instance : IsTotal (Int × Int) rowLE := ⟨fun a b => le_total a.1 b.1⟩

instance : IsTrans (Int × Int) rowLE := ⟨fun _ _ _ hab hbc => le_trans hab hbc⟩

/-- pandas `~timeseries.index.duplicated()` with the default `keep="first"`
(`pvoutput/utils.py` line 174): walk the rows, dropping any row whose index
key has already been seen. -/
def keepFirstAux (seen : List Int) : List (Int × Int) → List (Int × Int)
  | [] => []
  | r :: rs =>
    if r.1 ∈ seen then keepFirstAux seen rs
    else r :: keepFirstAux (r.1 :: seen) rs

/-- What `timeseries.sort_index()` guarantees (`pvoutput/utils.py` line 173;
pandas `DataFrame.sort_index` with its default `kind="quicksort"`): the
result is sorted by the timestamp index, it is a permutation of the rows,
and a table whose index is already monotonic increasing is returned
unchanged (pandas' fast path skips the sort entirely in that case).  The
relative order of rows sharing a timestamp is otherwise UNSPECIFIED:
quicksort is not a stable sort. -/
def IsSortIndex (sort_index : List (Int × Int) → List (Int × Int)) : Prop :=
  ∀ t : List (Int × Int),
    List.Sorted rowLE (sort_index t) ∧ List.Perm (sort_index t) t ∧
      (List.Sorted rowLE t → sort_index t = t)

/-- `sort_and_de_dupe_pv_system` from `pvoutput/utils.py` lines 170-178:
sort the system's table by timestamp index, then keep only rows whose index
is not marked by `index.duplicated()` — i.e. the first row, in post-sort
order, of each duplicated timestamp.  The unstable pandas sort is abstracted
as the `sort_index` parameter; statements about every run of the source
quantify over all `IsSortIndex` realisations. -/
def sort_and_de_dupe_pv_system
    (sort_index : List (Int × Int) → List (Int × Int))
    (table : List (Int × Int)) : List (Int × Int) :=
  keepFirstAux [] (sort_index table)

/-- One admissible `sort_index` realisation, used to evaluate concrete runs.
On an already-sorted table it agrees with every admissible realisation
(all are forced to the identity, see `sort_and_de_dupe_forced_on_sorted`). -/
def sortIndexModel : List (Int × Int) → List (Int × Int) :=
  List.insertionSort rowLE

lemma sortIndexModel_is_sort_index : IsSortIndex sortIndexModel :=
  fun t =>
    ⟨List.sorted_insertionSort rowLE t, List.perm_insertionSort rowLE t,
      fun hs => hs.insertionSort_eq⟩

/-- On an already-sorted table every admissible `sort_index` realisation is
forced to the identity, so the result of `sort_and_de_dupe_pv_system` there
does not depend on the chosen realisation. -/
lemma sort_and_de_dupe_forced_on_sorted
    (sort_index : List (Int × Int) → List (Int × Int))
    (hsi : IsSortIndex sort_index) (table : List (Int × Int))
    (hs : List.Sorted rowLE table) :
    sort_and_de_dupe_pv_system sort_index table = keepFirstAux [] table := by
  unfold sort_and_de_dupe_pv_system
  rw [(hsi table).2.2 hs]

/-- `keepFirstAux` only drops rows. -/
lemma keepFirstAux_sublist :
    ∀ (l : List (Int × Int)) (seen : List Int),
      List.Sublist (keepFirstAux seen l) l := by
  intro l
  induction l with
  | nil => intro seen; simp [keepFirstAux]
  | cons r rs ih =>
    intro seen
    simp only [keepFirstAux]
    by_cases hb : r.1 ∈ seen
    · rw [if_pos hb]
      exact (ih seen).cons r
    · rw [if_neg hb]
      exact (ih (r.1 :: seen)).cons₂ r

/-- The keys surviving `keepFirstAux` are distinct and disjoint from the
already-seen keys. -/
lemma keepFirstAux_keys :
    ∀ (l : List (Int × Int)) (seen : List Int),
      ((keepFirstAux seen l).map Prod.fst).Nodup ∧
        ∀ r ∈ keepFirstAux seen l, r.1 ∉ seen := by
  intro l
  induction l with
  | nil => intro seen; simp [keepFirstAux]
  | cons b rs ih =>
    intro seen
    simp only [keepFirstAux]
    by_cases hb : b.1 ∈ seen
    · rw [if_pos hb]
      exact ih seen
    · rw [if_neg hb]
      obtain ⟨ihn, ihs⟩ := ih (b.1 :: seen)
      refine ⟨?_, ?_⟩
      · rw [List.map_cons, List.nodup_cons]
        refine ⟨?_, ihn⟩
        intro hmem
        rcases List.mem_map.1 hmem with ⟨s, hs, hsk⟩
        exact (ihs s hs) (hsk ▸ List.mem_cons_self _ _)
      · intro r hr
        rcases List.mem_cons.1 hr with h | h
        · subst h; exact hb
        · intro hrs
          exact (ihs r h) (List.mem_cons_of_mem _ hrs)

/-- Every row surviving `keepFirstAux` is the first row with its key in the
input. -/
lemma keepFirstAux_find? :
    ∀ (l : List (Int × Int)) (seen : List Int) (r : Int × Int),
      r ∈ keepFirstAux seen l →
      l.find? (fun s => s.1 == r.1) = some r := by
  intro l
  induction l with
  | nil => intro seen r hr; simp [keepFirstAux] at hr
  | cons b rs ih =>
    intro seen r hr
    simp only [keepFirstAux] at hr
    by_cases hb : b.1 ∈ seen
    · rw [if_pos hb] at hr
      have hrk : r.1 ∉ seen := (keepFirstAux_keys rs seen).2 r hr
      have hbk : (b.1 == r.1) = false := by
        rw [beq_eq_false_iff_ne]
        intro he
        exact hrk (he ▸ hb)
      rw [List.find?_cons_of_neg _ (by rw [hbk]; exact Bool.false_ne_true)]
      exact ih seen r hr
    · rw [if_neg hb] at hr
      rcases List.mem_cons.1 hr with h | h
      · subst h
        exact List.find?_cons_of_pos _ (by simp)
      · have hrk : r.1 ∉ b.1 :: seen :=
          (keepFirstAux_keys rs (b.1 :: seen)).2 r h
        have hne : r.1 ≠ b.1 := fun he =>
          hrk (he ▸ List.mem_cons_self _ _)
        rw [List.find?_cons_of_neg _ (by simp [Ne.symm hne])]
        exact ih (b.1 :: seen) r h

/-- Every key present in the input survives `keepFirstAux` (unless already
seen). -/
lemma keepFirstAux_keys_complete :
    ∀ (l : List (Int × Int)) (seen : List Int) (k : Int),
      (∃ x ∈ l, x.1 = k) →
      k ∈ seen ∨ ∃ r ∈ keepFirstAux seen l, r.1 = k := by
  intro l
  induction l with
  | nil => intro seen k hk; simp at hk
  | cons b rs ih =>
    intro seen k hk
    simp only [keepFirstAux]
    by_cases hb : b.1 ∈ seen
    · rw [if_pos hb]
      rcases hk with ⟨x, hx, hxk⟩
      rcases List.mem_cons.1 hx with h | h
      · subst h
        exact Or.inl (hxk ▸ hb)
      · exact ih seen k ⟨x, h, hxk⟩
    · rw [if_neg hb]
      rcases hk with ⟨x, hx, hxk⟩
      rcases List.mem_cons.1 hx with h | h
      · subst h
        exact Or.inr ⟨x, List.mem_cons_self _ _, hxk⟩
      · rcases ih (b.1 :: seen) k ⟨x, h, hxk⟩ with hseen | ⟨r, hr, hrk⟩
        · rcases List.mem_cons.1 hseen with h' | h'
          · exact Or.inr ⟨b, List.mem_cons_self _ _, h'.symm⟩
          · exact Or.inl h'
        · exact Or.inr ⟨r, List.mem_cons_of_mem _ hr, hrk⟩

/-- Claim C3, counterexample: a table holding two rows with the same
timestamp 5 — payload 1 appended first, payload 2 appended last — has a
monotonic index (`rowLE (5,1) (5,2)`), so pandas' `sort_index` fast path
returns it unchanged; every `IsSortIndex` realisation does, by
`sort_and_de_dupe_forced_on_sorted`, so the run is evaluated at
`sortIndexModel` without loss.  `~index.duplicated()` (default
`keep="first"`) then retains the FIRST appended row `(5, 1)`, not the
last-appended `(5, 2)` required by the claim. -/
theorem sort_and_de_dupe_pv_system_counterexample :
    rowLE (5, 1) (5, 2) ∧
      sort_and_de_dupe_pv_system sortIndexModel [(5, 1), (5, 2)] = [(5, 1)] ∧
      sort_and_de_dupe_pv_system sortIndexModel [(5, 1), (5, 2)] ≠ [(5, 2)] :=
  ⟨by decide, by decide, by decide⟩

/-- Claim C3 (amended): after `sort_and_de_dupe_pv_system` runs on a
system's observation table — for every admissible realisation of the
unstable pandas sort — the table is sorted by timestamp and contains at most
one row per timestamp; every retained row is one of the input rows and every
input timestamp is still present, so for a duplicated timestamp exactly one
of its rows survives, but WHICH one is not specified by the program (pandas'
default quicksort is not stable), and it is not the last occurrence in
general: whenever the appended table is already sorted by timestamp (pandas'
fast path then forces the sort to be the identity) the retained row is
provably the FIRST occurrence in append order. -/
theorem sort_and_de_dupe_pv_system_spec
    (sort_index : List (Int × Int) → List (Int × Int))
    (hsi : IsSortIndex sort_index) (table : List (Int × Int)) :
    List.Sorted rowLE (sort_and_de_dupe_pv_system sort_index table) ∧
    ((sort_and_de_dupe_pv_system sort_index table).map Prod.fst).Nodup ∧
    (∀ r ∈ sort_and_de_dupe_pv_system sort_index table, r ∈ table) ∧
    (∀ r ∈ table,
      ∃ r' ∈ sort_and_de_dupe_pv_system sort_index table, r'.1 = r.1) ∧
    (List.Sorted rowLE table →
      ∀ r ∈ sort_and_de_dupe_pv_system sort_index table,
        table.find? (fun s => s.1 == r.1) = some r) := by
  obtain ⟨hsort, hperm, hid⟩ := hsi table
  refine ⟨?_, (keepFirstAux_keys _ []).1, ?_, ?_, ?_⟩
  · exact List.Pairwise.sublist (keepFirstAux_sublist _ []) hsort
  · intro r hr
    have hmem : r ∈ sort_index table :=
      (keepFirstAux_sublist (sort_index table) []).subset hr
    exact hperm.mem_iff.1 hmem
  · intro r hr
    have hr' : r ∈ sort_index table := hperm.mem_iff.2 hr
    rcases keepFirstAux_keys_complete (sort_index table) [] r.1
        ⟨r, hr', rfl⟩ with h | h
    · simp at h
    · exact h
  · intro hs r hr
    have hr2 : r ∈ keepFirstAux [] table := by
      have h := hr
      unfold sort_and_de_dupe_pv_system at h
      rwa [hid hs] at h
    exact keepFirstAux_find? table [] r hr2

/-- `wait_for_rate_limit_reset` from `pvoutput/pvoutput.py` lines 1107-1130:
`timedelta_to_wait = rate_limit_reset_time - utc_now` plus a fixed 3-minute
safety margin; the seconds are returned, and slept only when `do_sleeping`.
Times are in seconds; the result pair is (seconds to wait, seconds slept). -/
def wait_for_rate_limit_reset (rate_limit_reset_time utc_now : Int)
    (do_sleeping : Bool) : Int × Int :=
  let secs_to_wait := (rate_limit_reset_time - utc_now) + 3 * 60
  (secs_to_wait, if do_sleeping then secs_to_wait else 0)

/-- Modelled from the spec's words (section 4.4) for comparison with the
source: `wait_seconds = max(0, (reset_time - now) + safety_margin)` with a
180-second margin. -/
def waitSecondsSpec (rate_limit_reset_time utc_now : Int) : Int :=
  max 0 ((rate_limit_reset_time - utc_now) + 180)

/-- Claim C4, counterexample: for a reset time 10 minutes in the past
(`reset = 0`, `now = 600`) the code computes `-420` seconds — there is no
`max(0, ...)` clamp — while the claimed formula gives `0`. -/
theorem wait_for_rate_limit_reset_counterexample :
    (wait_for_rate_limit_reset 0 600 false).1 = -420 ∧
      waitSecondsSpec 0 600 = 0 ∧
      (wait_for_rate_limit_reset 0 600 false).1 ≠ waitSecondsSpec 0 600 :=
  ⟨by decide, by decide, by decide⟩

/-- Claim C4 (amended): `wait_for_rate_limit_reset` computes the wait
duration as `(rate_limit_reset_time - now) + 180` seconds with NO clamping at
zero (the result is negative when the reset time is already past); whenever
`now ≤ reset_time` this agrees with the claimed `max(0, ...)` formula; for
`reset_time = now + 30 minutes` it returns `30*60 + 180 = 1980` seconds; and
with `do_sleeping = False` it returns the duration without sleeping. -/
theorem wait_for_rate_limit_reset_spec (reset_time utc_now : Int) :
    ((wait_for_rate_limit_reset reset_time utc_now false).1 =
        (reset_time - utc_now) + 180 ∧
      (wait_for_rate_limit_reset reset_time utc_now false).2 = 0) ∧
    (utc_now ≤ reset_time →
      (wait_for_rate_limit_reset reset_time utc_now false).1 =
        waitSecondsSpec reset_time utc_now) ∧
    (wait_for_rate_limit_reset (utc_now + 30 * 60) utc_now false).1 = 1980 := by
  refine ⟨⟨?_, rfl⟩, ?_, ?_⟩
  · show (reset_time - utc_now) + 3 * 60 = (reset_time - utc_now) + 180
    omega
  · intro h
    show (reset_time - utc_now) + 3 * 60 = waitSecondsSpec reset_time utc_now
    rw [waitSecondsSpec, max_eq_right (by omega)]
    omega
  · show (utc_now + 30 * 60 - utc_now) + 3 * 60 = 1980
    omega

/-- Witness for C4 (amended) at `reset_time = 1800`, `utc_now = 0`: the code
agrees with the clamped formula when the reset time lies in the future. -/
theorem wait_for_rate_limit_reset_spec_witness :
    (wait_for_rate_limit_reset 1800 0 false).1 = waitSecondsSpec 1800 0 :=
  (wait_for_rate_limit_reset_spec 1800 0).2.1 (by decide)

/-- A remote HTTP response as consumed by `_process_api_response`
(`pvoutput/pvoutput.py` lines 1064-1105): status code, the
`X-Rate-Limit-Remaining` and `X-Rate-Limit-Reset` header values (stored into
`rate_limit_remaining` / `rate_limit_reset_time` by
`_set_rate_limit_params`), and the body text. -/
structure Response where
  status_code : Int
  rate_limit_remaining : Int
  rate_limit_reset_time : Int
  content : String
deriving DecidableEq, Repr

/-- Outcome of `_process_api_response`. -/
inductive ProcessResult where
  | content (s : String)
  | noStatusFound
  | rateLimitExceeded
  | badStatusCode (code : Int)
deriving DecidableEq, Repr

/-- `_process_api_response` from `pvoutput/pvoutput.py` lines 1064-1105:
status 400 raises `NoStatusFound`; any other non-403 error status (4xx/5xx)
raises through `raise_for_status`; 403 with no remaining quota raises a bare
`RateLimitExceeded`; otherwise the body text is returned. -/
def process_api_response (r : Response) : ProcessResult :=
  if r.status_code = 400 then .noStatusFound
  else if r.status_code ≠ 403 ∧ 400 ≤ r.status_code ∧ r.status_code < 600 then
    .badStatusCode r.status_code
  else if r.status_code = 403 ∧ r.rate_limit_remaining ≤ 0 then
    .rateLimitExceeded
  else .content r.content

/-- Errors surfaced by `_api_query`. -/
inductive ApiQueryError where
  | noStatusFound
  | rateLimitExceeded (msg : String)
  | badStatusCode (code : Int)
  | noResponse
deriving DecidableEq, Repr

/-- The message `_api_query` attaches when raising `RateLimitExceeded`
(`pvoutput/pvoutput.py` lines 995-1003), carrying the reset time taken from
the response's rate-limit headers. -/
def rate_limit_msg (reset_time : Int) : String :=
  "PVOutput.org API rate limit exceeded!  Rate limit will be reset at " ++
    toString reset_time

/-- `_api_query` from `pvoutput/pvoutput.py` lines 963-1003, modelled over a
stream of responses (one consumed per request).  Returns the outcome together
with the number of requests issued and the number of rate-limit waits
performed.  On a quota-exhausted response with waiting enabled it waits
(`wait_for_rate_limit_reset`) and calls itself again with
`wait_if_rate_limit_exceeded=False`; with waiting disabled it raises
`RateLimitExceeded` with the reset-time message. -/
def _api_query (wait_if_rate_limit_exceeded : Bool) :
    List Response → (Except ApiQueryError String) × Nat × Nat
  | [] => (.error .noResponse, 0, 0)
  | r :: rest =>
    match process_api_response r with
    | .content s => (.ok s, 1, 0)
    | .noStatusFound => (.error .noStatusFound, 1, 0)
    | .badStatusCode c => (.error (.badStatusCode c), 1, 0)
    | .rateLimitExceeded =>
      if wait_if_rate_limit_exceeded then
        let result := _api_query false rest
        (result.1, result.2.1 + 1, result.2.2 + 1)
      else
        (.error (.rateLimitExceeded (rate_limit_msg r.rate_limit_reset_time)),
          1, 0)

/-- `status_forcelist` of `_get_session_with_retry` (`pvoutput/utils.py`
lines 55-73): the only HTTP status codes the urllib3 retry layer retries. -/
def status_forcelist : List Int := [500, 502, 503, 504]

/-- Claim C5: on a quota-exhausted response, `_api_query` with waiting
enabled waits once and retries exactly once with waiting disabled (so two
rate-limited responses in a row produce exactly two requests and one wait,
ending in `RateLimitExceeded`); with waiting disabled it raises
`RateLimitExceeded` carrying the computed reset time in its message; and the
HTTP retry layer's `status_forcelist` does not contain 403, so
quota-exhaustion responses are not retried there. -/
theorem api_query_rate_limit_spec :
    (∀ (r : Response) (rest : List Response),
      process_api_response r = .rateLimitExceeded →
      (_api_query true (r :: rest) =
        ((_api_query false rest).1,
          (_api_query false rest).2.1 + 1, (_api_query false rest).2.2 + 1)) ∧
      (_api_query false (r :: rest) =
        (.error (.rateLimitExceeded (rate_limit_msg r.rate_limit_reset_time)),
          1, 0))) ∧
    (∀ (r r' : Response) (rest : List Response),
      process_api_response r = .rateLimitExceeded →
      process_api_response r' = .rateLimitExceeded →
      _api_query true (r :: r' :: rest) =
        (.error (.rateLimitExceeded (rate_limit_msg r'.rate_limit_reset_time)),
          2, 1)) ∧
    status_forcelist.contains 403 = false := by
  refine ⟨fun r rest h => ⟨?_, ?_⟩, fun r r' rest h h' => ?_, by decide⟩
  · simp only [_api_query, h, if_true]
  · simp only [_api_query, h]
    rfl
  · simp only [_api_query, h, h', if_true]
    rfl

/-- Witness for C5: two consecutive quota-exhausted responses (status 403,
zero remaining, reset times 12345 and 54321) yield exactly two requests, one
wait, and a `RateLimitExceeded` carrying the second response's reset time. -/
theorem api_query_rate_limit_spec_witness :
    _api_query true [⟨403, 0, 12345, ""⟩, ⟨403, 0, 54321, ""⟩] =
      (.error (.rateLimitExceeded (rate_limit_msg 54321)), 2, 1) :=
  api_query_rate_limit_spec.2.1 ⟨403, 0, 12345, ""⟩ ⟨403, 0, 54321, ""⟩ []
    (by decide) (by decide)

/-- In an ascending list, every element is at most the last one. -/
lemma sorted_le_getLast :
    ∀ (l : List Int), List.Sorted (· ≤ ·) l →
      ∀ x ∈ l.getLast?, ∀ d ∈ l, d ≤ x := by
  intro l
  induction l with
  | nil => intro _ x hx; simp at hx
  | cons a t ih =>
    intro hs x hx d hd
    cases t with
    | nil =>
      rw [show ([a] : List Int).getLast? = some a from rfl,
        Option.mem_some_iff] at hx
      rcases List.mem_singleton.1 hd with rfl
      omega
    | cons b t' =>
      rw [List.getLast?_cons_cons] at hx
      rcases List.mem_cons.1 hd with h | h
      · subst h
        have hdx : b ≤ x := ih hs.of_cons x hx b (List.mem_cons_self _ _)
        have hab : d ≤ b :=
          List.rel_of_sorted_cons hs b (List.mem_cons_self _ _)
        omega
      · exact ih hs.of_cons x hx d h

/-- `check_pv_system_status` from `pvoutput/pvoutput.py` lines 1169-1188,
restricted to the calendar dates of the (sorted) returned index: it raises
`ValueError` (modelled as `false`) when the first or last index date falls
outside `[requested_date, requested_date + ONE_DAY]` — note the lower bound
is the requested date itself, not one day before it. -/
def check_pv_system_status (index_dates : List Int) (requested_date : Int) :
    Bool :=
  match index_dates.head?, index_dates.getLast? with
  | some first, some last =>
    (decide (requested_date ≤ first) && decide (first ≤ requested_date + 1)) &&
      (decide (requested_date ≤ last) && decide (last ≤ requested_date + 1))
  | _, _ => true

/-- One iteration of `_download_multiple_worker` for a non-empty per-day
result (`pvoutput/pvoutput.py` lines 895-958, `use_get_status` path): the
returned timestamps are validated by `check_pv_system_status` before the
append; on failure the `ValueError` propagates and nothing is appended to the
store, otherwise the rows are appended. -/
def download_worker_step (store : List Int) (index_dates : List Int)
    (requested_date : Int) : Except String (List Int) :=
  if check_pv_system_status index_dates requested_date then
    .ok (store ++ index_dates)
  else
    .error "A date in the index is outside the expected range."

/-- Claim C6, counterexample: a result whose single timestamp falls on the
day before the requested date lies inside the claimed `requested ± 1 day`
window, yet the code rejects it (its window is `[requested, requested + 1]`)
and nothing is appended to the store. -/
theorem check_pv_system_status_counterexample :
    ([(-1 : Int)].all
        (fun d => decide (0 - 1 ≤ d) && decide (d ≤ 0 + 1)) = true) ∧
      check_pv_system_status [-1] 0 = false ∧
      download_worker_step [] [-1] 0 =
        .error "A date in the index is outside the expected range." :=
  ⟨by decide, by decide, rfl⟩

/-- Claim C6 (amended): for every non-empty per-day status result with
ascending timestamps, the validation passes iff every returned date lies in
`[requested_date, requested_date + 1]` (one day AFTER the requested date is
tolerated, one day before is not); when it passes the rows are appended to
the store, and when it fails the download raises and the store is returned
unchanged inside the error path (nothing is appended). -/
theorem check_pv_system_status_spec (index_dates : List Int)
    (requested_date : Int) (hs : List.Sorted (· ≤ ·) index_dates)
    (hne : index_dates ≠ []) :
    (check_pv_system_status index_dates requested_date = true ↔
      ∀ d ∈ index_dates,
        requested_date ≤ d ∧ d ≤ requested_date + 1) ∧
    (∀ store : List Int,
      (check_pv_system_status index_dates requested_date = true →
        download_worker_step store index_dates requested_date =
          .ok (store ++ index_dates)) ∧
      (check_pv_system_status index_dates requested_date = false →
        download_worker_step store index_dates requested_date =
          .error "A date in the index is outside the expected range.")) := by
  constructor
  · cases index_dates with
    | nil => exact absurd rfl hne
    | cons a t =>
      have hlast : ∃ x, (a :: t).getLast? = some x := by
        have hsome := List.getLast?_isSome.2 (List.cons_ne_nil a t)
        cases hx : (a :: t).getLast? with
        | none => rw [hx] at hsome; simp [Option.isSome] at hsome
        | some x => exact ⟨x, rfl⟩
      obtain ⟨x, hx⟩ := hlast
      have hxmem : x ∈ a :: t := mem_of_getLast? (by rw [hx]; rfl)
      have hxtop : ∀ d ∈ a :: t, d ≤ x :=
        sorted_le_getLast _ hs x (by rw [hx]; rfl)
      have habot : ∀ d ∈ a :: t, a ≤ d := by
        intro d hd
        rcases List.mem_cons.1 hd with h | h
        · omega
        · exact List.rel_of_sorted_cons hs d h
      rw [check_pv_system_status]
      rw [List.head?_cons, hx]
      simp only [Bool.and_eq_true, decide_eq_true_eq]
      constructor
      · rintro ⟨⟨h1, h2⟩, h3, h4⟩ d hd
        have := habot d hd
        have := hxtop d hd
        omega
      · intro hall
        have ha := hall a (List.mem_cons_self _ _)
        have hx' := hall x hxmem
        omega
  · intro store
    constructor
    · intro h
      rw [download_worker_step, h]
      rfl
    · intro h
      rw [download_worker_step, h]
      rfl

/-- Witness for C6 (amended): the sorted result `[0, 1]` for requested date 0
passes validation and is appended. -/
theorem check_pv_system_status_spec_witness :
    check_pv_system_status [0, 1] 0 = true ∧
      download_worker_step [] [0, 1] 0 = .ok [0, 1] := by
  have hs : List.Sorted (· ≤ ·) [(0 : Int), 1] := by
    rw [List.sorted_cons]
    refine ⟨?_, List.sorted_singleton _⟩
    intro b hb
    rcases List.mem_singleton.1 hb with rfl
    omega
  have h := check_pv_system_status_spec [0, 1] 0 hs (by simp)
  have hc : check_pv_system_status [0, 1] 0 = true := by
    refine h.1.2 ?_
    intro d hd
    rcases List.mem_cons.1 hd with rfl | hd
    · omega
    · rcases List.mem_singleton.1 hd with rfl
      omega
  exact ⟨hc, ((h.2 []).1 hc).trans (by rfl)⟩

/-- Witness for C3 (amended): in the already-sorted table appending `(3,7)`,
`(5,1)`, `(5,2)`, the retained row for the duplicated timestamp 5 is the
first appended occurrence `(5,1)`. -/
theorem sort_and_de_dupe_pv_system_spec_witness :
    List.find? (fun s : Int × Int => s.1 == (5, 1).1)
        [(3, 7), (5, 1), (5, 2)] = some (5, 1) :=
  (sort_and_de_dupe_pv_system_spec sortIndexModel sortIndexModel_is_sort_index
      [(3, 7), (5, 1), (5, 2)]).2.2.2.2 (by decide) (5, 1) (by decide)
